import Mathlib

/-!
Shallow embedding of the core of `btc_tracker.py`: the password-protected
configuration store (key derivation, authenticated encryption of the
credentials record, the save/load/setup lifecycle) and the CLI main flow
(price selection and balance aggregation).  Cryptographic primitives and
the OS random source, which live in external libraries, are modelled by
executable stand-ins that keep exactly the contracts the program relies on;
everything written in the script itself is translated directly.
-/

namespace BtcTracker

/-- Byte strings are modelled as lists of naturals. -/
abbrev Bytes := List Nat

/-- Models `os.urandom n`: the `g`-th draw from an idealized random byte
stream; `g` is the random-source state, advanced once per draw. -/
def urandom (n : Nat) (g : Nat) : Bytes :=
  (List.range n).map (fun i => (g * 131 + i * 7 + 11) % 256)

/-- Folds a byte string into one natural number; mixing helper for the
modelled key-derivation primitive. -/
def byteFold (l : Bytes) : Nat :=
  l.foldl (fun a b => a * 257 + b + 1) 7

/-- Models the `PBKDF2HMAC(SHA256, length, salt, iterations)` primitive of the
`cryptography` library: a deterministic function of password, salt and
iteration count that returns `len` bytes.  Only determinism, dependence on all
inputs and the output length are relied on; the internal compression function
is an executable stand-in, not real SHA-256. -/
def pbkdf2_sha256 (password : Bytes) (salt : Bytes) (iterations : Nat) (len : Nat) : Bytes :=
  (List.range len).map (fun i =>
    (iterations * 1000003 + byteFold password * 31 + byteFold salt * 17 + i * 65537) % 256)

/-- Byte value of digit `i` of the URL-safe base64 alphabet. -/
def b64Char (i : Nat) : Nat :=
  if i < 26 then 65 + i
  else if i < 52 then 97 + (i - 26)
  else if i < 62 then 48 + (i - 52)
  else if i = 62 then 45
  else 95

/-- URL-safe base64 encoding (`base64.urlsafe_b64encode`): 3-byte groups map to
4 output bytes, with `=` (byte 61) padding for a short final group. -/
def b64Encode : Bytes → Bytes
  | [] => []
  | [b1] => [b64Char (b1 / 4), b64Char (b1 % 4 * 16), 61, 61]
  | [b1, b2] => [b64Char (b1 / 4), b64Char (b1 % 4 * 16 + b2 / 16), b64Char (b2 % 16 * 4), 61]
  | b1 :: b2 :: b3 :: rest =>
    b64Char (b1 / 4) :: b64Char (b1 % 4 * 16 + b2 / 16) ::
      b64Char (b2 % 16 * 4 + b3 / 64) :: b64Char (b3 % 64) :: b64Encode rest

/-- `derive_key` (btc_tracker.py lines 26-34): PBKDF2-HMAC-SHA256 with 390000
iterations producing 32 bytes of key material, returned URL-safe
base64-encoded (44 bytes) as the Fernet interface expects. -/
def derive_key (password : String) (salt : Bytes) : Bytes :=
  b64Encode (pbkdf2_sha256 (password.data.map Char.toNat) salt 390000 32)

/-- Models `Fernet(key).encrypt`: an idealized authenticated-encryption token
binding the key and carrying the payload twice; the duplicate plays the role
of the authentication tag, so tampering with any token byte is detected
exactly when the real tag check would fail. -/
def fernetEncrypt (key : Bytes) (pt : Bytes) : Bytes :=
  key ++ (pt ++ pt)

/-- Models `Fernet(key).decrypt`: returns the payload exactly on untampered
tokens produced with the same key; `none` models the `InvalidToken` error. -/
def fernetDecrypt (key : Bytes) (token : Bytes) : Option Bytes :=
  if token.take key.length = key ∧ (token.drop key.length).length % 2 = 0 ∧
      (token.drop key.length).take ((token.drop key.length).length / 2)
        = (token.drop key.length).drop ((token.drop key.length).length / 2) then
    some ((token.drop key.length).take ((token.drop key.length).length / 2))
  else none

/-- The credentials record assembled in `setup_config` (lines 144-148) and
protected by the store. -/
structure Config where
  btc_addresses : List String
  binance_api_key : String
  binance_api_secret : String
deriving DecidableEq

/-- Length-prefixed byte serialization of one string (its JSON encoding,
modelled injectively). -/
def encodeString (s : String) : Bytes :=
  s.data.length :: s.data.map Char.toNat

/-- Concatenated serializations of a list of strings. -/
def encodeStrings (l : List String) : Bytes :=
  l.foldr (fun s acc => encodeString s ++ acc) []

/-- Models `json.dumps(data).encode()` on the credentials record: an injective
byte serialization of the three fields. -/
def encodeConfig (c : Config) : Bytes :=
  (c.btc_addresses.length :: encodeStrings c.btc_addresses)
    ++ (encodeString c.binance_api_key ++ encodeString c.binance_api_secret)

/-- Parses one length-prefixed string; `none` on malformed input. -/
def decodeString : Bytes → Option (String × Bytes)
  | [] => none
  | n :: rest =>
    if n ≤ rest.length then
      some (String.mk ((rest.take n).map Char.ofNat), rest.drop n)
    else none

/-- Parses `n` length-prefixed strings. -/
def decodeStrings : Nat → Bytes → Option (List String × Bytes)
  | 0, rest => some ([], rest)
  | n + 1, rest =>
    match decodeString rest with
    | some (s, r1) =>
      match decodeStrings n r1 with
      | some (ss, r2) => some (s :: ss, r2)
      | none => none
    | none => none

/-- Models `json.loads` on a decrypted payload: a full parse of the serialized
record, `none` on any malformed input (the raised error is caught together
with decryption errors in `load_config`). -/
def decodeConfig (pt : Bytes) : Option Config :=
  match pt with
  | [] => none
  | n :: rest =>
    match decodeStrings n rest with
    | some (addrs, r1) =>
      match decodeString r1 with
      | some (k, r2) =>
        match decodeString r2 with
        | some (sec, r3) => if r3 = [] then some ⟨addrs, k, sec⟩ else none
        | none => none
      | none => none
    | none => none

/-- `encrypt_config` (lines 37-44): draw a fresh 16-byte salt from random
state `g`, derive the key from the password and that salt, Fernet-encrypt the
serialized record.  Result: the new file content `salt ++ token` and the
advanced random state. -/
def encrypt_config (data : Config) (password : String) (g : Nat) : Bytes × Nat :=
  (urandom 16 g ++ fernetEncrypt (derive_key password (urandom 16 g)) (encodeConfig data),
    g + 1)

/-- States of the config file visible while `encrypt_config` runs: the
previous content, then the empty file (Python's `open(path, "wb")` on line 43
truncates the file when it opens it), then the completely written new content
(line 44).  The write happens in place at the config path; no temporary file
and no rename are involved. -/
def encrypt_config_states (prev : Option Bytes) (data : Config) (password : String)
    (g : Nat) : List (Option Bytes) :=
  [prev, some [], some (encrypt_config data password g).1]

/-- `decrypt_config` (lines 47-58): split the raw file into the first 16 bytes
of salt and the rest as ciphertext (Python slicing is total: a short file
yields a short salt and an empty ciphertext), derive the key, decrypt,
deserialize.  `none` models any raised exception. -/
def decrypt_config (password : String) (raw : Bytes) : Option Config :=
  match fernetDecrypt (derive_key password (raw.take 16)) (raw.drop 16) with
  | some pt => decodeConfig pt
  | none => none

/-- Observable outcome of a CLI step: a loaded record, or a printed message
together with the process exit code. -/
inductive RunExit where
  | ok (c : Config)
  | err (msg : String) (code : Nat)
deriving DecidableEq

/-- `load_config` (lines 159-164) on a present config file: try to decrypt
with the prompted password; any exception is caught and turned into one
generic message and exit code 1, the same for every failure cause. -/
def load_config (raw : Bytes) (password : String) : RunExit :=
  match decrypt_config password raw with
  | some c => RunExit.ok c
  | none => RunExit.err "Invalid password or corrupted config." 1

/-- `setup_config` (lines 124-152) after the interactive inputs are collected:
a confirmation that differs from the password prints an error and exits 1
leaving the file system untouched; otherwise the record is encrypted and
saved.  Result: the config file after the call and the outcome. -/
def setup_config (prev : Option Bytes) (addresses : List String)
    (api_key api_secret password confirm : String) (g : Nat) :
    Option Bytes × RunExit :=
  if password ≠ confirm then
    (prev, RunExit.err "Passwords do not match." 1)
  else
    (some (encrypt_config ⟨addresses, api_key, api_secret⟩ password g).1,
      RunExit.ok ⟨addresses, api_key, api_secret⟩)

/-- The network requests the program can issue. -/
inductive NetCall where
  | priceFetch
  | addressBalance (addr : String)
  | binanceBalance
deriving DecidableEq

/-- The network environment: the CoinGecko price answer (`none` models a
transport error), the per-address confirmed balances, and the Binance spot
balance.  Numeric values are idealized as rationals. -/
structure NetWorld where
  price : Option (ℚ × ℚ)
  addrBalance : String → ℚ
  binanceSpot : ℚ

/-- Parsed CLI arguments (lines 172-176). -/
structure Args where
  assume_price : Option ℚ
  show_config : Bool

/-- The `EUR_RATE` constant (line 19). -/
def EUR_RATE : ℚ := 0.92

/-- `fetch_btc_price` as called on lines 194-197: one network request, then
the `if not price_usd:` failure check, which aborts on a transport error and
also on a price of zero (Python truthiness). -/
def fetchPriceStep (oracle : Option (ℚ × ℚ)) : List NetCall × Option (ℚ × ℚ) :=
  ([NetCall.priceFetch],
    match oracle with
    | some (usd, eur) => if usd = 0 then none else some (usd, eur)
    | none => none)

/-- The price-selection step (lines 187-199).  `if args.assume_price:` is a
Python truthiness test: both an absent flag and a supplied value of `0.0`
take the network branch. -/
def priceStep (assume_price : Option ℚ) (oracle : Option (ℚ × ℚ)) :
    List NetCall × Option (ℚ × ℚ) :=
  match assume_price with
  | some v =>
    if v ≠ 0 then ([], some (v, v * EUR_RATE))
    else fetchPriceStep oracle
  | none => fetchPriceStep oracle

/-- Observable outcome of one `main` run: the network calls made in order,
the record printed by `--show-config` (if any), the price pair used, and the
final totals (BTC, USD, EUR). -/
structure MainOutcome where
  calls : List NetCall
  shownConfig : Option Config
  priceUsed : Option (ℚ × ℚ)
  totals : Option (ℚ × ℚ × ℚ)
deriving DecidableEq

/-- `main` (lines 171-222) after `load_config` has returned `config` (neither
the load nor the setup path performs network I/O).  Dispatches
`--show-config` before any network step, selects the price, sums the
per-address balances, adds the Binance spot balance, and reports totals. -/
def main (args : Args) (config : Config) (world : NetWorld) : MainOutcome :=
  if args.show_config then
    { calls := [], shownConfig := some config, priceUsed := none, totals := none }
  else
    match priceStep args.assume_price world.price with
    | (c0, none) => { calls := c0, shownConfig := none, priceUsed := none, totals := none }
    | (c0, some (usd, eur)) =>
      { calls := c0 ++ config.btc_addresses.map NetCall.addressBalance
          ++ [NetCall.binanceBalance],
        shownConfig := none,
        priceUsed := some (usd, eur),
        totals := some ((config.btc_addresses.map world.addrBalance).sum + world.binanceSpot,
          ((config.btc_addresses.map world.addrBalance).sum + world.binanceSpot) * usd,
          ((config.btc_addresses.map world.addrBalance).sum + world.binanceSpot) * eur) }

/-! Basic facts about the modelled primitives. -/

theorem urandom_length (n g : Nat) : (urandom n g).length = n := by
  simp [urandom]

theorem pbkdf2_sha256_length (p s : Bytes) (it len : Nat) :
    (pbkdf2_sha256 p s it len).length = len := by
  simp [pbkdf2_sha256]

theorem b64Encode_length (l : Bytes) : (b64Encode l).length = (l.length + 2) / 3 * 4 := by
  match l with
  | [] => simp [b64Encode]
  | [b1] => simp [b64Encode]
  | [b1, b2] => simp [b64Encode]
  | b1 :: b2 :: b3 :: rest =>
    have ih := b64Encode_length rest
    simp only [b64Encode, List.length_cons, ih]
    omega

theorem derive_key_length (p : String) (s : Bytes) : (derive_key p s).length = 44 := by
  simp [derive_key, b64Encode_length, pbkdf2_sha256_length]

theorem derive_key_ne_nil (p : String) (s : Bytes) : derive_key p s ≠ [] := by
  intro h
  have h44 := derive_key_length p s
  rw [h] at h44
  simp at h44

/-! The modelled Fernet layer: decryption succeeds exactly on untampered
tokens produced with the matching key. -/

theorem fernetDecrypt_fernetEncrypt (key pt : Bytes) :
    fernetDecrypt key (fernetEncrypt key pt) = some pt := by
  have ht : (key ++ (pt ++ pt)).take key.length = key := List.take_left key (pt ++ pt)
  have hd : (key ++ (pt ++ pt)).drop key.length = pt ++ pt := List.drop_left key (pt ++ pt)
  have hlen : (pt ++ pt).length = pt.length + pt.length := by simp
  have hhalf : (pt.length + pt.length) / 2 = pt.length := by omega
  have htk : (pt ++ pt).take pt.length = pt := List.take_left pt pt
  have hdr : (pt ++ pt).drop pt.length = pt := List.drop_left pt pt
  simp only [fernetEncrypt, fernetDecrypt, ht, hd, hlen, hhalf, htk, hdr]
  simp
  omega

theorem fernetDecrypt_wrong_key (key key' body : Bytes) (hlen : key.length = key'.length)
    (hne : key ≠ key') : fernetDecrypt key' (key ++ body) = none := by
  have ht : (key ++ body).take key'.length = key := List.take_left' hlen
  simp only [fernetDecrypt, ht]
  rw [if_neg]
  intro hand
  exact hne hand.1

theorem set_getElem_ne (l : Bytes) (m b : Nat) (hm : m < l.length) (hb : b ≠ l[m]) :
    l.set m b ≠ l := by
  intro heq
  have h2 : (l.set m b)[m]? = l[m]? := by rw [heq]
  rw [List.getElem?_set_self hm, List.getElem?_eq_getElem hm] at h2
  exact hb (Option.some.inj h2)

theorem dup_set_ne (pt : Bytes) (m b w : Nat) (hw : (pt ++ pt)[m]? = some w) (hb : b ≠ w) :
    ¬ ((pt ++ pt).set m b).take pt.length = ((pt ++ pt).set m b).drop pt.length := by
  obtain ⟨hm, hval⟩ := List.getElem?_eq_some_iff.mp hw
  rcases Nat.lt_or_ge m pt.length with hmp | hmp
  · have hset : (pt ++ pt).set m b = pt.set m b ++ pt := List.set_append_left m b hmp
    have hlenset : (pt.set m b).length = pt.length := List.length_set pt m b
    have hpm : (pt ++ pt)[m] = pt[m] := List.getElem_append_left hmp
    have hbp : b ≠ pt[m] := by rw [← hpm, hval]; exact hb
    rw [hset, List.take_left' hlenset, List.drop_left' hlenset]
    exact set_getElem_ne pt m b hmp hbp
  · have hset : (pt ++ pt).set m b = pt ++ pt.set (m - pt.length) b :=
      List.set_append_right m b hmp
    have hmb : m - pt.length < pt.length := by
      rw [List.length_append] at hm; omega
    have hvb : (pt ++ pt)[m] = pt[m - pt.length] := List.getElem_append_right hmp
    have hbp : b ≠ pt[m - pt.length] := by rw [← hvb, hval]; exact hb
    rw [hset, List.take_left, List.drop_left]
    exact (set_getElem_ne pt (m - pt.length) b hmb hbp).symm

theorem fernetDecrypt_flip (key pt : Bytes) (m b w : Nat)
    (hw : (fernetEncrypt key pt)[m]? = some w) (hb : b ≠ w) :
    fernetDecrypt key ((fernetEncrypt key pt).set m b) = none := by
  simp only [fernetEncrypt] at hw ⊢
  obtain ⟨hm, hval⟩ := List.getElem?_eq_some_iff.mp hw
  rcases Nat.lt_or_ge m key.length with hmk | hmk
  · have hset : (key ++ (pt ++ pt)).set m b = key.set m b ++ (pt ++ pt) :=
      List.set_append_left m b hmk
    have hlenset : (key.set m b).length = key.length := List.length_set key m b
    have ht : (key.set m b ++ (pt ++ pt)).take key.length = key.set m b :=
      List.take_left' hlenset
    have hkm : (key ++ (pt ++ pt))[m] = key[m] := List.getElem_append_left hmk
    have hbk : b ≠ key[m] := by rw [← hkm, hval]; exact hb
    have hne : key.set m b ≠ key := set_getElem_ne key m b hmk hbk
    rw [hset]
    simp only [fernetDecrypt, ht]
    rw [if_neg]
    intro hand
    exact hne hand.1
  · have hset : (key ++ (pt ++ pt)).set m b = key ++ ((pt ++ pt).set (m - key.length) b) :=
      List.set_append_right m b hmk
    have hmb : m - key.length < (pt ++ pt).length := by
      rw [List.length_append] at hm; omega
    have hvb : (key ++ (pt ++ pt))[m] = (pt ++ pt)[m - key.length] :=
      List.getElem_append_right hmk
    have hw2 : (pt ++ pt)[m - key.length]? = some w := by
      rw [List.getElem?_eq_getElem hmb, ← hvb, hval]
    have hdup := dup_set_ne pt (m - key.length) b w hw2 hb
    have hlenset : ((pt ++ pt).set (m - key.length) b).length = pt.length + pt.length := by
      simp
    have hhalf : (pt.length + pt.length) / 2 = pt.length := by omega
    have ht : (key ++ ((pt ++ pt).set (m - key.length) b)).take key.length = key :=
      List.take_left key ((pt ++ pt).set (m - key.length) b)
    have hd : (key ++ ((pt ++ pt).set (m - key.length) b)).drop key.length
        = (pt ++ pt).set (m - key.length) b :=
      List.drop_left key ((pt ++ pt).set (m - key.length) b)
    rw [hset]
    simp only [fernetDecrypt, ht, hd, hlenset, hhalf]
    rw [if_neg]
    intro hand
    exact hdup hand.2.2

/-! Round trip of the modelled JSON serialization. -/

theorem decodeString_encodeString (s : String) (r : Bytes) :
    decodeString (encodeString s ++ r) = some (s, r) := by
  have hlen : (s.data.map Char.toNat).length = s.data.length := List.length_map s.data _
  simp only [encodeString, List.cons_append, decodeString]
  rw [if_pos (by rw [List.length_append, hlen]; omega)]
  rw [List.take_left' hlen, List.drop_left' hlen]
  have hmap : (s.data.map Char.toNat).map Char.ofNat = s.data := by
    simp [List.map_map, Function.comp_def]
  rw [hmap]

theorem decodeStrings_encodeStrings (l : List String) (r : Bytes) :
    decodeStrings l.length (encodeStrings l ++ r) = some (l, r) := by
  induction l generalizing r with
  | nil => simp [decodeStrings, encodeStrings]
  | cons s t ih =>
    have hsplit : encodeStrings (s :: t) ++ r = encodeString s ++ (encodeStrings t ++ r) := by
      simp [encodeStrings, List.append_assoc]
    rw [List.length_cons, hsplit]
    simp only [decodeStrings, decodeString_encodeString, ih]

theorem decodeConfig_encodeConfig (c : Config) : decodeConfig (encodeConfig c) = some c := by
  obtain ⟨addrs, k, sec⟩ := c
  simp only [encodeConfig, List.cons_append, decodeConfig]
  rw [decodeStrings_encodeStrings addrs (encodeString k ++ encodeString sec)]
  simp only [decodeString_encodeString k (encodeString sec)]
  have hsec : encodeString sec = encodeString sec ++ [] := by simp
  rw [hsec, decodeString_encodeString sec []]
  simp

/-! Round trip of the store itself. -/

theorem decrypt_config_encrypt_config (c : Config) (p : String) (g : Nat) :
    decrypt_config p (encrypt_config c p g).1 = some c := by
  have hsalt : (urandom 16 g).length = 16 := urandom_length 16 g
  simp only [encrypt_config, decrypt_config]
  rw [List.take_left' hsalt, List.drop_left' hsalt, fernetDecrypt_fernetEncrypt]
  exact decodeConfig_encodeConfig c

/-! The claims. -/

/-- C1: for every credentials record and every password, loading the config
with that password right after saving the record with it returns the record
unchanged. -/
theorem save_load_roundtrip (c : Config) (p : String) (g : Nat) :
    load_config (encrypt_config c p g).1 p = RunExit.ok c := by
  simp only [load_config, decrypt_config_encrypt_config]

/-- C3 counterexample: at a concrete password and salt the value returned by
derive_key is 44 bytes long, not 32: the function returns the URL-safe base64
encoding of the 32 bytes of derived key material. -/
theorem derive_key_not_32_bytes : (derive_key "pw" (urandom 16 0)).length ≠ 32 := by
  rw [derive_key_length]
  decide

/-- C3 (amended): derive_key is a deterministic pure function that applies the
PBKDF2-SHA256 derivation with exactly 390,000 iterations to obtain 32 bytes of
key material, and returns the URL-safe base64 encoding of those bytes, a
44-byte value, as the Fernet interface expects. -/
theorem derive_key_contract (p : String) (s : Bytes) :
    (pbkdf2_sha256 (p.data.map Char.toNat) s 390000 32).length = 32 ∧
    derive_key p s = b64Encode (pbkdf2_sha256 (p.data.map Char.toNat) s 390000 32) ∧
    (derive_key p s).length = 44 :=
  ⟨pbkdf2_sha256_length (p.data.map Char.toNat) s 390000 32, rfl, derive_key_length p s⟩

/-- C5: every save draws a fresh random 16-byte salt and stores it in clear as
the first 16 bytes of the file; two successive saves of the same record with
the same password (the second starting from the random state the first
returned) produce different on-disk bytes whenever the two fresh draws differ,
which a random source guarantees up to negligible probability. -/
theorem fresh_salt_distinct_files (c : Config) (p : String) (g : Nat)
    (h : urandom 16 g ≠ urandom 16 (g + 1)) :
    (encrypt_config c p g).2 = g + 1 ∧
    (encrypt_config c p g).1.take 16 = urandom 16 g ∧
    (urandom 16 g).length = 16 ∧
    (encrypt_config c p g).1 ≠ (encrypt_config c p (g + 1)).1 := by
  have hsalt : ∀ gg : Nat, (encrypt_config c p gg).1.take 16 = urandom 16 gg := by
    intro gg
    simp only [encrypt_config]
    exact List.take_left' (urandom_length 16 gg)
  refine ⟨rfl, hsalt g, urandom_length 16 g, ?_⟩
  intro heq
  apply h
  rw [← hsalt g, ← hsalt (g + 1), heq]

/-- C5 witness: starting from random state 0, the two successive salt draws
differ and the two saved files differ. -/
theorem fresh_salt_distinct_files_witness :
    (encrypt_config ⟨["addr"], "key", "secret"⟩ "pw" 0).2 = 0 + 1 ∧
    (encrypt_config ⟨["addr"], "key", "secret"⟩ "pw" 0).1.take 16 = urandom 16 0 ∧
    (urandom 16 0).length = 16 ∧
    (encrypt_config ⟨["addr"], "key", "secret"⟩ "pw" 0).1
      ≠ (encrypt_config ⟨["addr"], "key", "secret"⟩ "pw" (0 + 1)).1 :=
  fresh_salt_distinct_files ⟨["addr"], "key", "secret"⟩ "pw" 0 (by decide)

/-- C6: during first-run setup, whenever the confirmation differs from the
password the run ends with the mismatch message and exit code 1 and the config
file keeps its previous state, whatever that was. -/
theorem setup_mismatch_no_file (prev : Option Bytes) (addrs : List String)
    (k s pw confirm : String) (g : Nat) (h : pw ≠ confirm) :
    setup_config prev addrs k s pw confirm g
      = (prev, RunExit.err "Passwords do not match." 1) := by
  simp [setup_config, h]

/-- C6 witness: a concrete mismatched pair aborts with exit code 1 and leaves
the absent file absent. -/
theorem setup_mismatch_no_file_witness :
    setup_config none ["addr"] "key" "secret" "alpha" "beta" 0
      = (none, RunExit.err "Passwords do not match." 1) :=
  setup_mismatch_no_file none ["addr"] "key" "secret" "alpha" "beta" 0 (by decide)

/-- C7: whenever the show-config flag is set, the run prints the decrypted
record and terminates with no network call of any kind and no totals computed,
whatever the price flag, the record and the network environment. -/
theorem show_config_no_network (ap : Option ℚ) (config : Config) (world : NetWorld) :
    (main ⟨ap, true⟩ config world).calls = [] ∧
    (main ⟨ap, true⟩ config world).shownConfig = some config ∧
    (main ⟨ap, true⟩ config world).priceUsed = none ∧
    (main ⟨ap, true⟩ config world).totals = none := by
  simp [main]

/-- C2: loading a saved file with a password whose derived key differs from
the saving key (which is what a wrong password yields, the KDF being
collision-free in practice) fails with the generic invalid-password message
and exit code 1; flipping any single byte of the file beyond the 16-byte salt
makes load with the correct password fail the authentication check with
exactly the same message and exit code rather than return altered plaintext;
the two failures are therefore indistinguishable to the caller. -/
theorem auth_failure_indistinguishable :
    (∀ (c : Config) (p p' : String) (g : Nat),
      derive_key p' (urandom 16 g) ≠ derive_key p (urandom 16 g) →
      load_config (encrypt_config c p g).1 p'
        = RunExit.err "Invalid password or corrupted config." 1)
    ∧
    (∀ (c : Config) (p : String) (g : Nat) (j b w : Nat),
      16 ≤ j → (encrypt_config c p g).1[j]? = some w → b ≠ w →
      load_config ((encrypt_config c p g).1.set j b) p
        = RunExit.err "Invalid password or corrupted config." 1) := by
  constructor
  · intro c p p' g hne
    have hsalt : (urandom 16 g).length = 16 := urandom_length 16 g
    have hklen : (derive_key p (urandom 16 g)).length
        = (derive_key p' (urandom 16 g)).length := by
      rw [derive_key_length, derive_key_length]
    have hdec : decrypt_config p' (encrypt_config c p g).1 = none := by
      simp only [decrypt_config, encrypt_config]
      rw [List.take_left' hsalt, List.drop_left' hsalt]
      rw [show fernetEncrypt (derive_key p (urandom 16 g)) (encodeConfig c)
          = derive_key p (urandom 16 g) ++ (encodeConfig c ++ encodeConfig c) from rfl]
      rw [fernetDecrypt_wrong_key _ _ _ hklen (Ne.symm hne)]
    simp [load_config, hdec]
  · intro c p g j b w hj hw hb
    have hsalt : (urandom 16 g).length = 16 := urandom_length 16 g
    have hj16 : (urandom 16 g).length ≤ j := by rw [hsalt]; omega
    have hfile : (encrypt_config c p g).1
        = urandom 16 g ++ fernetEncrypt (derive_key p (urandom 16 g)) (encodeConfig c) := rfl
    rw [hfile] at hw
    obtain ⟨hjlen, hval⟩ := List.getElem?_eq_some_iff.mp hw
    have hjtok : j - (urandom 16 g).length
        < (fernetEncrypt (derive_key p (urandom 16 g)) (encodeConfig c)).length := by
      rw [List.length_append] at hjlen
      omega
    have hvb : (urandom 16 g
          ++ fernetEncrypt (derive_key p (urandom 16 g)) (encodeConfig c))[j]
        = (fernetEncrypt (derive_key p (urandom 16 g))
            (encodeConfig c))[j - (urandom 16 g).length] :=
      List.getElem_append_right hj16
    have hw2 : (fernetEncrypt (derive_key p (urandom 16 g))
          (encodeConfig c))[j - (urandom 16 g).length]? = some w := by
      rw [List.getElem?_eq_getElem hjtok, ← hvb, hval]
    have hflip := fernetDecrypt_flip (derive_key p (urandom 16 g)) (encodeConfig c)
      (j - (urandom 16 g).length) b w hw2 hb
    have hset : (encrypt_config c p g).1.set j b
        = urandom 16 g ++ ((fernetEncrypt (derive_key p (urandom 16 g))
            (encodeConfig c)).set (j - (urandom 16 g).length) b) := by
      rw [hfile]
      exact List.set_append_right j b hj16
    have hdec : decrypt_config p ((encrypt_config c p g).1.set j b) = none := by
      rw [hset]
      simp only [decrypt_config]
      rw [List.take_left' hsalt, List.drop_left' hsalt, hflip]
    simp [load_config, hdec]

/-- C2 witness: for a concrete record saved with password pw, loading with the
wrong password pw2 and loading after flipping the file byte at offset 16 both
produce exactly the generic error with exit code 1. -/
theorem auth_failure_indistinguishable_witness :
    load_config (encrypt_config ⟨["addr"], "key", "secret"⟩ "pw" 0).1 "pw2"
      = RunExit.err "Invalid password or corrupted config." 1 ∧
    load_config ((encrypt_config ⟨["addr"], "key", "secret"⟩ "pw" 0).1.set 16 999) "pw"
      = RunExit.err "Invalid password or corrupted config." 1 :=
  ⟨auth_failure_indistinguishable.1 ⟨["addr"], "key", "secret"⟩ "pw" "pw2" 0 (by decide),
    auth_failure_indistinguishable.2 ⟨["addr"], "key", "secret"⟩ "pw" 0 16 999 88
      (by decide) (by decide) (by decide)⟩

/-- C10: a config file shorter than 16 bytes is handled totally: the slicing
takes the whole file as salt and the empty remainder as ciphertext, the
authentication check then fails, and load exits through the same generic
invalid-password/corrupted-config path with code 1, for every password. -/
theorem truncated_file_total (raw : Bytes) (p : String) (h : raw.length < 16) :
    raw.take 16 = raw ∧ raw.drop 16 = [] ∧
    load_config raw p = RunExit.err "Invalid password or corrupted config." 1 := by
  have ht : raw.take 16 = raw := List.take_of_length_le (by omega)
  have hd : raw.drop 16 = [] := List.drop_eq_nil_of_le (by omega)
  refine ⟨ht, hd, ?_⟩
  have hdec : decrypt_config p raw = none := by
    simp only [decrypt_config]
    rw [ht, hd]
    simp only [fernetDecrypt]
    rw [if_neg]
    intro hand
    have h1 := hand.1
    rw [List.take_nil] at h1
    exact derive_key_ne_nil p raw h1.symm
  simp [load_config, hdec]

/-- C10 witness: a concrete 3-byte file is split totally and load exits with
the generic error for a concrete password. -/
theorem truncated_file_total_witness :
    ([5, 6, 7] : Bytes).take 16 = [5, 6, 7] ∧ ([5, 6, 7] : Bytes).drop 16 = [] ∧
    load_config [5, 6, 7] "pw" = RunExit.err "Invalid password or corrupted config." 1 :=
  truncated_file_total [5, 6, 7] "pw" (by decide)

/-- C4 counterexample: at a concrete previous file and record, the truncated
empty file is visible at the config path during save, and it is neither the
previous content nor the complete new content: the write is not atomic. -/
theorem save_not_atomic_counterexample :
    some [] ∈ encrypt_config_states (some [7]) ⟨["addr"], "key", "secret"⟩ "pw" 0 ∧
    some ([] : Bytes) ≠ some [7] ∧
    some ([] : Bytes) ≠ some (encrypt_config ⟨["addr"], "key", "secret"⟩ "pw" 0).1 := by
  refine ⟨by simp [encrypt_config_states], by decide, by decide⟩

/-- C4 (amended): save writes the full salt ++ ciphertext content directly to
the config path by a truncating open followed by one write, not via a
temporary path and rename: the last visible state is always the complete new
file, but whenever the previous file is nonempty an intermediate state (the
empty truncated file) is visible that is neither the previous file intact nor
the complete new file. -/
theorem save_truncate_write (prev : Bytes) (c : Config) (p : String) (g : Nat)
    (hprev : prev ≠ []) :
    (encrypt_config_states (some prev) c p g).getLast?
      = some (some (encrypt_config c p g).1) ∧
    some [] ∈ encrypt_config_states (some prev) c p g ∧
    some ([] : Bytes) ≠ some prev ∧
    some ([] : Bytes) ≠ some (encrypt_config c p g).1 := by
  refine ⟨rfl, by simp [encrypt_config_states], ?_, ?_⟩
  · intro hcontra
    exact hprev (Option.some.inj hcontra).symm
  · intro hcontra
    have hfl := congrArg List.length (Option.some.inj hcontra)
    simp only [encrypt_config, List.length_nil, List.length_append] at hfl
    rw [urandom_length] at hfl
    omega

/-- C4 witness: a concrete save over a concrete nonempty previous file shows
the truncation window. -/
theorem save_truncate_write_witness :
    (encrypt_config_states (some [3, 4]) ⟨[], "k", "s"⟩ "x" 2).getLast?
      = some (some (encrypt_config ⟨[], "k", "s"⟩ "x" 2).1) ∧
    some [] ∈ encrypt_config_states (some [3, 4]) ⟨[], "k", "s"⟩ "x" 2 ∧
    some ([] : Bytes) ≠ some [3, 4] ∧
    some ([] : Bytes) ≠ some (encrypt_config ⟨[], "k", "s"⟩ "x" 2).1 :=
  save_truncate_write [3, 4] ⟨[], "k", "s"⟩ "x" 2 (by decide)

/-- C8 counterexample: a supplied price value of 0.0 is falsy in Python, so
the network price lookup is not skipped for it: the run issues the network
price fetch although a price value was supplied on the command line. -/
theorem assume_price_zero_fetches :
    NetCall.priceFetch
      ∈ (main ⟨some 0, false⟩ ⟨[], "key", "secret"⟩
          ⟨some (1000, 900), fun _ => 0, 0⟩).calls := by
  decide

/-- C8 (amended): for every nonzero value supplied via assume-price the
network price lookup is skipped and the price pair used is (v, v * EUR_RATE)
with EUR_RATE = 92/100, so the EUR price equals v times 0.92; a supplied 0.0
is treated like an absent flag (Python truthiness) and the network price fetch
happens instead. -/
theorem assume_price_nonzero_skips (v : ℚ) (config : Config) (world : NetWorld)
    (hv : v ≠ 0) :
    (main ⟨some v, false⟩ config world).priceUsed = some (v, v * EUR_RATE) ∧
    NetCall.priceFetch ∉ (main ⟨some v, false⟩ config world).calls ∧
    EUR_RATE = 92 / 100 := by
  refine ⟨?_, ?_, by norm_num [EUR_RATE]⟩ <;>
    simp [main, priceStep, hv, List.mem_append, List.mem_map]

/-- C8 witness: a supplied price of 50000 yields the pair (50000, 46000) with
no network price call. -/
theorem assume_price_nonzero_skips_witness :
    (main ⟨some 50000, false⟩ ⟨["addr"], "key", "secret"⟩
        ⟨none, fun _ => 0, 0⟩).priceUsed = some (50000, 46000) ∧
    NetCall.priceFetch ∉ (main ⟨some 50000, false⟩ ⟨["addr"], "key", "secret"⟩
        ⟨none, fun _ => 0, 0⟩).calls := by
  have h := assume_price_nonzero_skips 50000 ⟨["addr"], "key", "secret"⟩
    ⟨none, fun _ => 0, 0⟩ (by norm_num)
  refine ⟨?_, h.2.1⟩
  rw [h.1]
  simp only [EUR_RATE, Option.some.injEq, Prod.mk.injEq]
  norm_num

/-- C9: without assume-price and with a successful nonzero price fetch, the
reported totals are: total BTC = the sum of the per-address balances plus the
exchange spot balance, total USD = total BTC times the USD price, and total
EUR = total BTC times the EUR price. -/
theorem totals_aggregate (config : Config) (world : NetWorld) (usd eur : ℚ)
    (hp : world.price = some (usd, eur)) (hu : usd ≠ 0) :
    (main ⟨none, false⟩ config world).totals
      = some ((config.btc_addresses.map world.addrBalance).sum + world.binanceSpot,
          ((config.btc_addresses.map world.addrBalance).sum + world.binanceSpot) * usd,
          ((config.btc_addresses.map world.addrBalance).sum + world.binanceSpot) * eur) := by
  simp [main, priceStep, fetchPriceStep, hp, hu]

/-- C9 witness: balances 0.5 and 1.2, spot balance 2.0 and prices (30000,
27600) give total BTC 3.7, total USD 111000 and total EUR 102120. -/
theorem totals_aggregate_witness :
    (main ⟨none, false⟩ ⟨["a1", "a2"], "key", "secret"⟩
        ⟨some (30000, 27600), fun a => if a = "a1" then 1 / 2 else 6 / 5, 2⟩).totals
      = some (37 / 10, 111000, 102120) := by
  rw [totals_aggregate ⟨["a1", "a2"], "key", "secret"⟩
    ⟨some (30000, 27600), fun a => if a = "a1" then 1 / 2 else 6 / 5, 2⟩ 30000 27600 rfl
    (by norm_num)]
  simp only [List.map_cons, List.map_nil, List.sum_cons, List.sum_nil,
    Option.some.injEq, Prod.mk.injEq]
  rw [if_neg (show ¬ ("a2" : String) = "a1" from by decide)]
  norm_num

end BtcTracker
